import Mathlib

/-!
Verification of the table generator `scripts/gen_tables.py`.

The script precomputes, for a maximum FFT size `N`:
  - radix-2 twiddle (sine) tables, one per size in the descending chain
    `N, N/2, ...` while the size exceeds 2, and
  - bit-reversal tables, one per size in the ascending chain `1, 2, 4, ..., N`.

The embedding below mirrors the Python source function by function.  The
floating-point library functions `math.sin` and `math.pi` are treated as an
external collaborator: the table builders are parameterised over a real
function `sin` and a real constant `pi`, and theorems instantiate them with
`Real.sin` and `Real.pi`.  Python's arbitrary-precision non-negative integers
are modelled by `ℕ`; Python's `//` and the bitwise operators `&`, `|`, `<<`
map to `ℕ` division and `&&&`, `|||`, `<<<`.
-/

/-- Loop of `reverse_bits(num, nbits)`: after `m` iterations of
`for i in range(nbits)`, the accumulator `reverse` holds this value.
Iteration `i` ORs in `1 << (nbits - 1 - i)` exactly when `num & (1 << i)`
is non-zero. -/
def revLoop (num nbits : ℕ) : ℕ → ℕ
  | 0 => 0
  | i + 1 =>
    if num &&& (1 <<< i) ≠ 0 then revLoop num nbits i ||| (1 <<< (nbits - 1 - i))
    else revLoop num nbits i

/-- `reverse_bits(num, nbits)` from the script: reverse the low `nbits` bits of
`num` by running the loop for all `nbits` iterations. -/
def reverse_bits (num nbits : ℕ) : ℕ := revLoop num nbits nbits

/-- Fuel-driven halving loop computing the floor of the base-2 logarithm;
`int(math.log2(n))` in the script (exact for the power-of-two sizes the
script feeds it).  The fuel only makes the recursion structural; `n` units
are always enough. -/
def log2Loop : ℕ → ℕ → ℕ
  | 0, _ => 0
  | fuel + 1, n => if 2 ≤ n then log2Loop fuel (n / 2) + 1 else 0

/-- `int(math.log2(n))` as used by `emit_bitrev_table`. -/
def int_log2 (n : ℕ) : ℕ := log2Loop n n

/-- Body of the `for i in range(n)` loop of `emit_bitrev_table`:
`rev = reverse_bits(i, nbits); entry = rev if rev > i else i`. -/
def bitrevEntry (n i : ℕ) : ℕ :=
  let rev := reverse_bits i (int_log2 n)
  if rev > i then rev else i

/-- `emit_bitrev_table(n)`: the sequence of entries printed for size `n`,
one entry per index `i` in `range(n)`. -/
def emit_bitrev_table (n : ℕ) : List ℕ :=
  (List.range n).map (bitrevEntry n)

/-- `emit_sine_table(n)`: the sequence of values printed for size `n`,
`sin(-2 * pi * k / n)` for `k` in `range(1, n // 4)`.  `sin` and `pi` are
the `math` module's, passed in as parameters; the value type is any
division ring so that the definition stays executable, and theorems
instantiate it with `ℝ`, `Real.sin` and `Real.pi`. -/
def emit_sine_table {α : Type} [DivisionRing α] (sin : α → α) (pi : α) (n : ℕ) :
    List α :=
  (List.range' 1 (n / 4 - 1)).map (fun k : ℕ => sin (-2 * pi * k / n))

/-- Size chain of `emit_sine(max_n)`: `n = max_n; while n > 2: ... n //= 2`. -/
def sineSizes (n : ℕ) : List ℕ :=
  if h : 2 < n then n :: sineSizes (n / 2) else []
termination_by n
decreasing_by omega

/-- Size chain of `emit_bitrev(max_n)`: `n = 1; while n <= max_n: ... n *= 2`.
The conjunct `0 < n` only serves termination: the script enters the loop
at `n = 1` and doubles, so `n` is always positive there. -/
def bitrevSizesLoop (maxN n : ℕ) : List ℕ :=
  if h : n ≤ maxN ∧ 0 < n then n :: bitrevSizesLoop maxN (2 * n) else []
termination_by maxN + 1 - n
decreasing_by omega

/-- The ascending size chain of `emit_bitrev(max_n)`, starting at 1. -/
def bitrevSizes (maxN : ℕ) : List ℕ := bitrevSizesLoop maxN 1

/-- `emit_sine(max_n)`: one `(size, table)` pair per size in the descending
chain. -/
def emit_sine {α : Type} [DivisionRing α] (sin : α → α) (pi : α) (maxN : ℕ) :
    List (ℕ × List α) :=
  (sineSizes maxN).map (fun n => (n, emit_sine_table sin pi n))

/-- `emit_bitrev(max_n)`: the bit-reversal tables in ascending size order. -/
def emit_bitrev (maxN : ℕ) : List (List ℕ) :=
  (bitrevSizes maxN).map emit_bitrev_table

/-- The complete output of one run of the script for input `N`: the twiddle
tables and the bit-reversal tables, in emission order. -/
structure GenOutput (α : Type) where
  sine : List (ℕ × List α)
  bitrev : List (List ℕ)

/-- `main()` restricted to its generated values: parse `N`, emit the sine
tables, then the bit-reversal tables.  There is no other input and no
validation step in the script. -/
def gen_tables {α : Type} [DivisionRing α] (sin : α → α) (pi : α) (N : ℕ) :
    GenOutput α :=
  { sine := emit_sine sin pi N, bitrev := emit_bitrev N }

/-! ### Helper lemmas about `reverse_bits` -/

/-- The loop test `num & (1 << i)` is non-zero exactly when bit `i` of `num`
is set. -/
lemma and_one_shift_ne (num i : ℕ) :
    (num &&& (1 <<< i) ≠ 0) ↔ num.testBit i = true := by
  rw [Nat.shiftLeft_eq, one_mul, Nat.and_two_pow]
  cases h : num.testBit i <;> simp [h]

/-- Bit characterisation of the partial accumulator: after `m` iterations,
bit `j` is set exactly when `j` lies in the already-produced window
`[nbits - m, nbits)` and the mirrored source bit `nbits - 1 - j` of `num`
is set. -/
lemma revLoop_testBit (num nbits : ℕ) :
    ∀ m, m ≤ nbits → ∀ j, (revLoop num nbits m).testBit j =
      (decide (nbits - m ≤ j ∧ j < nbits) && num.testBit (nbits - 1 - j)) := by
  intro m
  induction m with
  | zero =>
    intro _ j
    have h : ¬(nbits - 0 ≤ j ∧ j < nbits) := by omega
    simp [revLoop, h]
  | succ m ih =>
    intro hm j
    have hm' : m ≤ nbits := by omega
    rw [revLoop]
    by_cases hb : num.testBit m = true
    · rw [if_pos ((and_one_shift_ne num m).mpr hb)]
      rw [Nat.testBit_or, ih hm' j, Nat.shiftLeft_eq, one_mul, Nat.testBit_two_pow]
      by_cases hj : j = nbits - 1 - m
      · subst hj
        have h1 : nbits - 1 - (nbits - 1 - m) = m := by omega
        have h2 : (nbits - (m + 1) ≤ nbits - 1 - m ∧ nbits - 1 - m < nbits) := by
          omega
        simp [h1, h2, hb]
      · have h3 : decide (nbits - 1 - m = j) = false := by simp; omega
        rw [h3, Bool.or_false]
        congr 1
        rw [decide_eq_decide]
        omega
    · rw [if_neg (by simp [and_one_shift_ne, hb])]
      rw [ih hm' j]
      by_cases hj : j = nbits - 1 - m
      · subst hj
        have h1 : nbits - 1 - (nbits - 1 - m) = m := by omega
        have hb' : num.testBit m = false := by simpa using hb
        rw [h1]
        simp [hb']
      · congr 1
        rw [decide_eq_decide]
        omega

/-- Bit `j < nbits` of `reverse_bits num nbits` is bit `nbits - 1 - j` of
`num`. -/
lemma reverse_bits_testBit (num nbits j : ℕ) (hj : j < nbits) :
    (reverse_bits num nbits).testBit j = num.testBit (nbits - 1 - j) := by
  rw [reverse_bits, revLoop_testBit num nbits nbits le_rfl j]
  have h : (nbits - nbits ≤ j ∧ j < nbits) := by omega
  simp [h]

/-- The accumulator only ever sets bits below `nbits`. -/
lemma revLoop_lt (num nbits : ℕ) :
    ∀ m, m ≤ nbits → revLoop num nbits m < 2 ^ nbits := by
  intro m
  induction m with
  | zero => intro _; exact Nat.pos_pow_of_pos nbits (by norm_num)
  | succ m ih =>
    intro hm
    rw [revLoop]
    split
    · apply Nat.or_lt_two_pow (ih (by omega))
      rw [Nat.shiftLeft_eq, one_mul]
      exact Nat.pow_lt_pow_right (by norm_num) (by omega)
    · exact ih (by omega)

/-- `reverse_bits` stays below `2 ^ nbits`, for every input. -/
lemma reverse_bits_lt (num nbits : ℕ) : reverse_bits num nbits < 2 ^ nbits :=
  revLoop_lt num nbits nbits le_rfl

/-- Numbers below `2 ^ b` have no set bits at positions `≥ b`. -/
lemma testBit_false_of_lt {x b j : ℕ} (hx : x < 2 ^ b) (hj : b ≤ j) :
    x.testBit j = false :=
  Nat.testBit_lt_two_pow
    (lt_of_lt_of_le hx (Nat.pow_le_pow_right (by norm_num) hj))

/-- Reversing the low `nbits` bits twice restores any `num < 2 ^ nbits`. -/
lemma reverse_bits_involutive (num nbits : ℕ) (h : num < 2 ^ nbits) :
    reverse_bits (reverse_bits num nbits) nbits = num := by
  apply Nat.eq_of_testBit_eq
  intro j
  by_cases hj : j < nbits
  · rw [reverse_bits_testBit _ _ _ hj,
      reverse_bits_testBit _ _ _ (by omega : nbits - 1 - j < nbits)]
    congr 1
    omega
  · rw [testBit_false_of_lt (reverse_bits_lt _ _) (by omega),
      testBit_false_of_lt h (by omega)]

/-! ### Helper lemmas about `int_log2` and the size chains -/

/-- With enough fuel, the halving loop computes the exponent of a power of
two. -/
lemma log2Loop_pow (b : ℕ) : ∀ fuel, 2 ^ b ≤ fuel → log2Loop fuel (2 ^ b) = b := by
  induction b with
  | zero =>
    intro fuel h
    match fuel, h with
    | f + 1, _ => simp [log2Loop]
  | succ c ih =>
    intro fuel h
    have h1 : 1 ≤ 2 ^ c := Nat.pos_pow_of_pos c (by norm_num)
    have h2 : 2 ^ (c + 1) = 2 * 2 ^ c := by rw [pow_succ]; ring
    obtain ⟨f, rfl⟩ : ∃ f, fuel = f + 1 := ⟨fuel - 1, by omega⟩
    rw [log2Loop]
    rw [if_pos (by omega)]
    have h3 : 2 ^ (c + 1) / 2 = 2 ^ c := by omega
    rw [h3, ih f (by omega)]

/-- `int_log2` is exact on powers of two, matching `int(math.log2(n))`. -/
lemma int_log2_pow (b : ℕ) : int_log2 (2 ^ b) = b :=
  log2Loop_pow b (2 ^ b) le_rfl

/-- Peeling the first element off a map over `List.range (n + 1)`. -/
lemma map_range_succ_cons {α : Type} (g : ℕ → α) (n : ℕ) :
    (List.range (n + 1)).map g = g 0 :: (List.range n).map (fun i => g (i + 1)) := by
  rw [List.range_succ_eq_map, List.map_cons, List.map_map]
  rfl

/-- Closed form of the descending twiddle chain on powers of two `≥ 4`:
the sizes `2 ^ k, 2 ^ (k - 1), ..., 2 ^ 2`. -/
lemma sineSizes_pow (k : ℕ) (hk : 2 ≤ k) :
    sineSizes (2 ^ k) = (List.range (k - 1)).map (fun i => 2 ^ (k - i)) := by
  induction k with
  | zero => omega
  | succ c ih =>
    have h1 : 1 ≤ 2 ^ c := Nat.pos_pow_of_pos c (by norm_num)
    have h1' : 2 ≤ 2 ^ c := by
      have := Nat.pow_le_pow_right (by norm_num : 0 < 2) (by omega : 1 ≤ c)
      simpa using this
    have h2 : 2 ^ (c + 1) = 2 * 2 ^ c := by rw [pow_succ]; ring
    rw [sineSizes, dif_pos (by omega : 2 < 2 ^ (c + 1))]
    have h3 : 2 ^ (c + 1) / 2 = 2 ^ c := by omega
    rw [h3]
    rcases Nat.lt_or_ge c 2 with hc | hc
    · have hc1 : c = 1 := by omega
      subst hc1
      rw [sineSizes, dif_neg (by norm_num)]
      simp [List.range_succ]
    · rw [ih hc]
      have h4 : c + 1 - 1 = (c - 1) + 1 := by omega
      rw [h4]
      conv_rhs => rw [map_range_succ_cons]
      have hhead : (2 : ℕ) ^ (c + 1 - 0) = 2 ^ (c + 1) := by norm_num
      have htail : (List.range (c - 1)).map (fun i => 2 ^ (c - i))
          = (List.range (c - 1)).map (fun i => 2 ^ (c + 1 - (i + 1))) := by
        apply List.map_congr_left
        intro i _
        congr 1
        omega
      rw [htail, hhead]

/-- Closed form of the ascending loop started at `2 ^ j` with bound
`2 ^ (j + d)`. -/
lemma bitrevSizesLoop_pow (d : ℕ) :
    ∀ j, bitrevSizesLoop (2 ^ (j + d)) (2 ^ j)
      = (List.range (d + 1)).map (fun i => 2 ^ (j + i)) := by
  induction d with
  | zero =>
    intro j
    have h1 : 1 ≤ 2 ^ j := Nat.pos_pow_of_pos j (by norm_num)
    rw [Nat.add_zero]
    rw [bitrevSizesLoop, dif_pos ⟨le_rfl, by omega⟩]
    have h2 : 2 * 2 ^ j = 2 ^ (j + 1) := by rw [pow_succ]; ring
    rw [h2, bitrevSizesLoop,
      dif_neg (by
        intro hcon
        have h3 : 2 ^ (j + 1) = 2 * 2 ^ j := by rw [pow_succ]; ring
        have h4 := hcon.1
        omega)]
    simp [List.range_succ]
  | succ d ih =>
    intro j
    have h1 : 1 ≤ 2 ^ j := Nat.pos_pow_of_pos j (by norm_num)
    have h5 : 2 ^ j ≤ 2 ^ (j + (d + 1)) := Nat.pow_le_pow_right (by norm_num) (by omega)
    rw [bitrevSizesLoop, dif_pos ⟨h5, by omega⟩]
    have h2 : 2 * 2 ^ j = 2 ^ (j + 1) := by rw [pow_succ]; ring
    have h6 : j + (d + 1) = (j + 1) + d := by omega
    rw [h2, h6, ih (j + 1)]
    conv_rhs => rw [map_range_succ_cons]
    have hhead : (2 : ℕ) ^ (j + 0) = 2 ^ j := by norm_num
    have htail : (List.range (d + 1)).map (fun i => 2 ^ (j + 1 + i))
        = (List.range (d + 1)).map (fun i => 2 ^ (j + (i + 1))) := by
      apply List.map_congr_left
      intro i _
      congr 1
      omega
    rw [htail, hhead]

/-- Closed form of the ascending bit-reversal chain on powers of two:
`1, 2, 4, ..., 2 ^ k`. -/
lemma bitrevSizes_pow (k : ℕ) :
    bitrevSizes (2 ^ k) = (List.range (k + 1)).map (fun i => 2 ^ i) := by
  have h := bitrevSizesLoop_pow k 0
  rw [zero_add] at h
  rw [bitrevSizes, show (1 : ℕ) = 2 ^ 0 by norm_num, h]
  apply List.map_congr_left
  intro i _
  rw [zero_add]

/-! ### Helper lemmas about the emitted tables -/

/-- The bit-reversal table for size `n` has `n` entries. -/
lemma emit_bitrev_table_length (n : ℕ) : (emit_bitrev_table n).length = n := by
  simp [emit_bitrev_table]

/-- Entry `i` of the bit-reversal table is the loop body value. -/
lemma emit_bitrev_table_get (n i : ℕ) (h : i < (emit_bitrev_table n).length) :
    (emit_bitrev_table n).get ⟨i, h⟩ = bitrevEntry n i := by
  simp [emit_bitrev_table]

/-- The twiddle table for size `n` has `n / 4 - 1` entries (`ℕ` subtraction,
so zero when `n / 4 ≤ 1`). -/
lemma emit_sine_table_length {α : Type} [DivisionRing α] (s : α → α) (p : α)
    (n : ℕ) : (emit_sine_table s p n).length = n / 4 - 1 := by
  rw [emit_sine_table, List.length_map, List.length_range']

/-- Entry computation specialised to exact powers of two, where
`int(math.log2(2 ^ b)) = b`. -/
lemma bitrevEntry_pow (b i : ℕ) :
    bitrevEntry (2 ^ b) i
      = if reverse_bits i b > i then reverse_bits i b else i := by
  rw [bitrevEntry, int_log2_pow]

/-! ### Claims -/

/-- C1: for `1 ≤ k < n / 4`, element `k` (1-indexed, i.e. position `k - 1`)
of the twiddle table for size `n` is `sin(-2 π k / n)`; the table lists the
samples for `k = 1, 2, ...` in that order. -/
theorem C1_twiddle_table_values (s : ℝ → ℝ) (p : ℝ) (n k : ℕ)
    (h1 : 1 ≤ k) (h2 : k < n / 4)
    (hl : k - 1 < (emit_sine_table s p n).length) :
    (emit_sine_table s p n).get ⟨k - 1, hl⟩ = s (-2 * p * k / n) := by
  simp only [emit_sine_table, List.get_eq_getElem, List.getElem_map,
    List.getElem_range']
  have h : 1 + 1 * (k - 1) = k := by omega
  rw [h]

/-- C1 witness: size 8, `k = 1`. -/
theorem C1_twiddle_table_values_witness :
    1 ≤ 1 ∧ 1 < 8 / 4
    ∧ (emit_sine_table Real.sin Real.pi 8).get
        ⟨1 - 1, by rw [emit_sine_table_length]; norm_num⟩
      = Real.sin (-2 * Real.pi * ((1 : ℕ) : ℝ) / ((8 : ℕ) : ℝ)) :=
  ⟨le_rfl, by norm_num,
    C1_twiddle_table_values Real.sin Real.pi 8 1 le_rfl (by norm_num)
      (by rw [emit_sine_table_length]; norm_num)⟩

/-- C2 (amended): entry `i` of the bit-reversal table for size `2 ^ b` is
`max i (reverse_bits i b)`; it lies in `{i, reverse_bits i b}`, and it equals
`reverse_bits i b` iff that value is greater than **or equal to** `i` (the
original "strictly greater" fails when the reversal is a fixed point). -/
theorem C2_bitrev_entry_is_max (b i : ℕ) (hi : i < 2 ^ b)
    (hl : i < (emit_bitrev_table (2 ^ b)).length) :
    (emit_bitrev_table (2 ^ b)).get ⟨i, hl⟩ = max i (reverse_bits i b)
    ∧ ((emit_bitrev_table (2 ^ b)).get ⟨i, hl⟩ = i
        ∨ (emit_bitrev_table (2 ^ b)).get ⟨i, hl⟩ = reverse_bits i b)
    ∧ ((emit_bitrev_table (2 ^ b)).get ⟨i, hl⟩ = reverse_bits i b
        ↔ i ≤ reverse_bits i b) := by
  rw [emit_bitrev_table_get _ _ hl, bitrevEntry_pow]
  rcases Nat.lt_or_ge i (reverse_bits i b) with hr | hr
  · rw [if_pos hr]
    exact ⟨(max_eq_right hr.le).symm, Or.inr rfl, by simp [hr.le]⟩
  · rw [if_neg (by omega)]
    refine ⟨(max_eq_left hr).symm, Or.inl rfl, ?_⟩
    constructor
    · intro h; omega
    · intro h; omega

/-- C2 witness: size 8 (`b = 3`), index 1, whose reversal is 4. -/
theorem C2_bitrev_entry_is_max_witness :
    (1 : ℕ) < 2 ^ 3 ∧ 1 < (emit_bitrev_table (2 ^ 3)).length
    ∧ ((emit_bitrev_table (2 ^ 3)).get ⟨1, by decide⟩
          = max 1 (reverse_bits 1 3)
        ∧ ((emit_bitrev_table (2 ^ 3)).get ⟨1, by decide⟩ = 1
            ∨ (emit_bitrev_table (2 ^ 3)).get ⟨1, by decide⟩ = reverse_bits 1 3)
        ∧ ((emit_bitrev_table (2 ^ 3)).get ⟨1, by decide⟩ = reverse_bits 1 3
            ↔ 1 ≤ reverse_bits 1 3)) :=
  ⟨by decide, by decide, C2_bitrev_entry_is_max 3 1 (by decide) (by decide)⟩

/-- C2 counterexample: at size 2, index 0, the entry equals
`reverse_bits 0 (log2 2)` (both are 0), yet that value is not strictly
greater than 0, so the claimed "equals the reversal iff strictly greater"
biconditional is false. -/
theorem C2_strict_iff_counterexample :
    ¬ ((emit_bitrev_table 2).get ⟨0, by decide⟩ = reverse_bits 0 (int_log2 2)
        ↔ reverse_bits 0 (int_log2 2) > 0) := by
  decide

/-- C3 (amended): the concrete tables for `N = 8`.  The bit-reversal tables
store `max(i, reverse_bits(i))`, so they read `[0, 4, 2, 6, 4, 5, 6, 7]` and
`[0, 2, 2, 3]` (not the full permutations `[0, 4, 2, 6, 1, 5, 3, 7]` and
`[0, 2, 1, 3]` of the original claim); `BitReversalTable(2) = [0, 1]`;
`TwiddleTable(8) = [sin(-π/4)]`; `TwiddleTable(4)` is empty; and the twiddle
chain for 8 is `[8, 4]`, so no twiddle table is produced for size 2. -/
theorem C3_concrete_tables_n8 :
    emit_bitrev_table 8 = [0, 4, 2, 6, 4, 5, 6, 7]
    ∧ emit_bitrev_table 4 = [0, 2, 2, 3]
    ∧ emit_bitrev_table 2 = [0, 1]
    ∧ emit_sine_table Real.sin Real.pi 8 = [Real.sin (-(Real.pi / 4))]
    ∧ emit_sine_table Real.sin Real.pi 4 = []
    ∧ sineSizes 8 = [8, 4] := by
  refine ⟨by decide, by decide, by decide, ?_, rfl, by simp [sineSizes]⟩
  show [Real.sin (-2 * Real.pi * ((1 : ℕ) : ℝ) / ((8 : ℕ) : ℝ))] = _
  congr 1
  congr 1
  push_cast
  ring

/-- C3 counterexample: the bit-reversal table for size 8 is not the full
bit-reversal permutation claimed; at index 4 the stored entry is
`max(4, 1) = 4`, not 1. -/
theorem C3_full_permutation_counterexample :
    ¬ (emit_bitrev_table 8 = [0, 4, 2, 6, 1, 5, 3, 7]) := by
  decide

/-- C4 (amended): the script performs no size validation at all.  For the
non-power-of-two input `N = 6` generation still runs to completion: the
twiddle chain halves through the non-power-of-two sizes `[6, 3]` (both
tables empty), and bit-reversal tables are produced for `[1, 2, 4]`.  No
`InvalidSize` error exists anywhere in the script. -/
theorem C4_no_size_validation :
    sineSizes 6 = [6, 3]
    ∧ emit_sine Real.sin Real.pi 6 = [(6, []), (3, [])]
    ∧ bitrevSizes 6 = [1, 2, 4]
    ∧ emit_bitrev 6 = [[0], [0, 1], [0, 2, 2, 3]] := by
  have hs : sineSizes 6 = [6, 3] := by simp [sineSizes]
  have hb : bitrevSizes 6 = [1, 2, 4] := by
    simp [bitrevSizes, bitrevSizesLoop]
  refine ⟨hs, ?_, hb, ?_⟩
  · rw [emit_sine, hs]
    simp [emit_sine_table, List.range']
  · rw [emit_bitrev, hb]
    decide

/-- C4 counterexample: for `N = 6` the run produces non-empty output of both
kinds instead of failing with a configuration error before any output. -/
theorem C4_rejection_counterexample :
    (gen_tables Real.sin Real.pi 6).sine ≠ []
    ∧ (gen_tables Real.sin Real.pi 6).bitrev ≠ [] := by
  constructor
  · show emit_sine Real.sin Real.pi 6 ≠ []
    rw [emit_sine]
    simp [sineSizes]
  · show emit_bitrev 6 ≠ []
    rw [emit_bitrev]
    simp [bitrevSizes, bitrevSizesLoop]

/-- C5: for `N = 2 ^ k` with `k ≥ 2`, the twiddle generator walks exactly
the descending chain `2 ^ k, 2 ^ (k - 1), ..., 4` (no gaps, no duplicates,
nothing at or below 2) and the bit-reversal generator walks exactly the
ascending chain `1, 2, ..., 2 ^ k`, in those orders. -/
theorem C5_size_chains (k : ℕ) (hk : 2 ≤ k) :
    sineSizes (2 ^ k) = (List.range (k - 1)).map (fun i => 2 ^ (k - i))
    ∧ bitrevSizes (2 ^ k) = (List.range (k + 1)).map (fun i => 2 ^ i) :=
  ⟨sineSizes_pow k hk, bitrevSizes_pow k⟩

/-- C5 witness: `N = 8`. -/
theorem C5_size_chains_witness :
    2 ≤ 3
    ∧ sineSizes (2 ^ 3) = (List.range (3 - 1)).map (fun i => 2 ^ (3 - i))
    ∧ bitrevSizes (2 ^ 3) = (List.range (3 + 1)).map (fun i => 2 ^ i) :=
  ⟨by norm_num, C5_size_chains 3 (by norm_num)⟩

/-- C6: every size `n` in a twiddle chain gets a table of length
`max(0, n / 4 - 1)` (integer division), and the table for size 4 is empty. -/
theorem C6_twiddle_table_length (s : ℝ → ℝ) (p : ℝ) (N n : ℕ)
    (hn : n ∈ sineSizes N) :
    ((emit_sine_table s p n).length : ℤ) = max 0 ((n : ℤ) / 4 - 1)
    ∧ emit_sine_table s p 4 = [] := by
  constructor
  · rw [emit_sine_table_length, max_def]
    split <;> omega
  · rfl

/-- C6 witness: size 8 in the chain for `N = 8`. -/
theorem C6_twiddle_table_length_witness :
    (8 : ℕ) ∈ sineSizes 8
    ∧ (((emit_sine_table Real.sin Real.pi 8).length : ℤ)
          = max 0 (((8 : ℕ) : ℤ) / 4 - 1)
        ∧ emit_sine_table Real.sin Real.pi 4 = []) :=
  ⟨by simp [sineSizes],
    C6_twiddle_table_length Real.sin Real.pi 8 8 (by simp [sineSizes])⟩

/-- C7: bit `j` of `reverse_bits i b` (for `j < b`, `i < 2 ^ b`) is bit
`b - 1 - j` of `i`; and for `b = 0` (size 1) the bit-reversal table is the
single entry `[0]`. -/
theorem C7_reverse_bits_bitwise :
    (∀ b i j, i < 2 ^ b → j < b →
        (reverse_bits i b).testBit j = i.testBit (b - 1 - j))
    ∧ emit_bitrev_table 1 = [0] :=
  ⟨fun b i j _ hj => reverse_bits_testBit i b j hj, by decide⟩

/-- C7 witness: `b = 3`, `i = 5`, `j = 0`. -/
theorem C7_reverse_bits_bitwise_witness :
    (5 : ℕ) < 2 ^ 3 ∧ (0 : ℕ) < 3
    ∧ (reverse_bits 5 3).testBit 0 = (5 : ℕ).testBit (3 - 1 - 0) :=
  ⟨by decide, by decide,
    C7_reverse_bits_bitwise.1 3 5 0 (by decide) (by decide)⟩

/-- C8: the whole generation is a pure function of the input `N` (together
with the ambient `sin` and `pi` of the `math` library): the embedding of the
script is deterministic by construction — the script reads no other input,
keeps no state and uses no randomness — so two runs on the same `N` are
definitionally equal. -/
theorem C8_deterministic (s : ℝ → ℝ) (p : ℝ) (N : ℕ) :
    gen_tables s p N = gen_tables s p N := rfl

/-- C9: `reverse_bits` with width `b` is an involution on `[0, 2 ^ b)`. -/
theorem C9_reverse_bits_involution (b i : ℕ) (h : i < 2 ^ b) :
    reverse_bits (reverse_bits i b) b = i :=
  reverse_bits_involutive i b h

/-- C9 witness: `b = 3`, `i = 6` (`110 → 011 → 110`). -/
theorem C9_reverse_bits_involution_witness :
    (6 : ℕ) < 2 ^ 3 ∧ reverse_bits (reverse_bits 6 3) 3 = 6 :=
  ⟨by decide, C9_reverse_bits_involution 3 6 (by decide)⟩

/-- C10: for size `n = 2 ^ b` and `i < n`: the reversal is in range
(`reverse_bits i b < n`), the stored entry satisfies `i ≤ entry < n`, and
the table is pair-symmetric: the entries at `i` and at `reverse_bits i b`
coincide. -/
theorem C10_bitrev_table_invariants (b i : ℕ) (hi : i < 2 ^ b)
    (hl : i < (emit_bitrev_table (2 ^ b)).length)
    (hr : reverse_bits i b < (emit_bitrev_table (2 ^ b)).length) :
    reverse_bits i b < 2 ^ b
    ∧ i ≤ (emit_bitrev_table (2 ^ b)).get ⟨i, hl⟩
    ∧ (emit_bitrev_table (2 ^ b)).get ⟨i, hl⟩ < 2 ^ b
    ∧ (emit_bitrev_table (2 ^ b)).get ⟨i, hl⟩
        = (emit_bitrev_table (2 ^ b)).get ⟨reverse_bits i b, hr⟩ := by
  have hrev : reverse_bits i b < 2 ^ b := reverse_bits_lt i b
  have hinv : reverse_bits (reverse_bits i b) b = i :=
    reverse_bits_involutive i b hi
  rw [emit_bitrev_table_get _ _ hl, emit_bitrev_table_get _ _ hr]
  simp only [bitrevEntry_pow, hinv]
  refine ⟨hrev, ?_, ?_, ?_⟩
  · split <;> omega
  · split <;> omega
  · split <;> split <;> omega

/-- C10 witness: `b = 2`, `i = 1`, whose reversal is 2. -/
theorem C10_bitrev_table_invariants_witness :
    (1 : ℕ) < 2 ^ 2 ∧ 1 < (emit_bitrev_table (2 ^ 2)).length
    ∧ reverse_bits 1 2 < (emit_bitrev_table (2 ^ 2)).length
    ∧ (reverse_bits 1 2 < 2 ^ 2
        ∧ 1 ≤ (emit_bitrev_table (2 ^ 2)).get ⟨1, by decide⟩
        ∧ (emit_bitrev_table (2 ^ 2)).get ⟨1, by decide⟩ < 2 ^ 2
        ∧ (emit_bitrev_table (2 ^ 2)).get ⟨1, by decide⟩
            = (emit_bitrev_table (2 ^ 2)).get ⟨reverse_bits 1 2, by decide⟩) :=
  ⟨by decide, by decide, by decide,
    C10_bitrev_table_invariants 2 1 (by decide) (by decide) (by decide)⟩
